import Mathlib

/-
Verification of the precinct cross-reference resolution pipeline in
santa_cruz_precincts.py: the explode_xref dictionary construction and
table insertion, the grouping-key join, and the update_precincts fill
pass, together with the run_tools sequencing of those passes.

Machine-level conventions of the embedding:
* a cross-reference row is a pair (voting precinct, member text), the
  member text an `Option String` since the DBF field can be null;
* a Python dict is an association list with unique keys in insertion
  order; assignment updates an existing entry in place, else appends;
* `sys.exit(n)` paths are modelled by returning the exit code `n`.
-/

namespace SantaCruz

/-- One raw cross-reference record: the `VotePrec` field and the
whitespace-separated `_Precincts` field (null when the DBF cell is). -/
abbrev XRow := String × Option String

/-- Helper for `pySplit`: scans the character list, accumulating the
current run of non-whitespace characters (reversed) in `acc`. -/
def splitChars : List Char → List Char → List String
  | [], [] => []
  | [], acc => [String.mk acc.reverse]
  | c :: cs, acc =>
    if c.isWhitespace then
      match acc with
      | [] => splitChars cs []
      | _ => String.mk acc.reverse :: splitChars cs []
    else splitChars cs (c :: acc)

/-- Python `str.split()` with no separator argument: the maximal runs of
non-whitespace characters, with leading, trailing and repeated
whitespace ignored, so `"".split()` is the empty list. -/
def pySplit (s : String) : List String :=
  splitChars s.toList []

/-- Python dict assignment `d[k] = v` on an association list with unique
keys: replaces the existing entry for `k` in place, else appends. -/
def dictInsert : List (String × String) → String → String → List (String × String)
  | [], k, v => [(k, v)]
  | p :: rest, k, v =>
    if p.1 = k then (k, v) :: rest else p :: dictInsert rest k v

/-- Python dict read `d[k]` made total: the value at key `k`, if any. -/
def dictLookup (d : List (String × String)) (k : String) : Option String :=
  (d.find? (fun p => p.1 == k)).map (fun p => p.2)

/-- The SearchCursor loop of `explode_xref`, building the
`precincts_1to1` dictionary.  Each row's member text is split on
whitespace and collapsed to a set; the Python set's enumeration order is
abstracted by `choose`, applied to the deduplicated token list (proved
immaterial for the resulting mapping below).  A null member text raises
`AttributeError`, caught by the generic handler: `sys.exit(207)`. -/
def explodeMapAuxWith (choose : List String → List String) :
    List XRow → List (String × String) → Except Nat (List (String × String))
  | [], d => .ok d
  | (_, none) :: _, _ => .error 207
  | (vp, some raw) :: rest, d =>
    explodeMapAuxWith choose rest
      ((choose (pySplit raw).dedup).foldl (fun d rp => dictInsert d rp vp) d)

/-- The `precincts_1to1` dictionary of `explode_xref`, starting empty,
with set-enumeration order `choose`. -/
def explodeMapWith (choose : List String → List String) (rows : List XRow) :
    Except Nat (List (String × String)) :=
  explodeMapAuxWith choose rows []

/-- The `precincts_1to1` dictionary of `explode_xref` with the canonical
first-occurrence enumeration of each row's token set. -/
def explodeMap (rows : List XRow) : Except Nat (List (String × String)) :=
  explodeMapWith id rows

/-- The InsertCursor loop of `explode_xref`: for each dictionary item
`(regular_precinct, voting_precinct)` the source inserts the row
`[regular_precinct, precincts_1to1[voting_precinct]]` — note the lookup
of the value, exactly as written at the `insertRow` call.  A missing key
raises `KeyError`, caught by the generic handler: `sys.exit(208)`,
leaving the rows already inserted in the table. -/
def insertRowsAux (d : List (String × String)) :
    List (String × String) → List (String × String) →
    List (String × String) × Option Nat
  | [], table => (table, none)
  | (rp, vp) :: rest, table =>
    match dictLookup d vp with
    | none => (table, some 208)
    | some v => insertRowsAux d rest (table ++ [(rp, v)])

/-- `explode_xref`: build the member-to-group dictionary from the
cross-reference rows, then insert its items into the exploded table.
Returns the final table contents and the exit code, if any; on a
dictionary-phase failure the table is untouched. -/
def explode_xref (rows : List XRow) (table : List (String × String)) :
    List (String × String) × Option Nat :=
  match explodeMap rows with
  | .error e => (table, some e)
  | .ok d => insertRowsAux d d table

/-- One record of the precincts feature class, restricted to the two
fields the core touches. -/
structure MemberRow where
  precinct : String
  votePrec : Option String
deriving DecidableEq, Repr

/-- `update_precincts`: the UpdateCursor selects rows whose `VotePrec`
is null and sets `VotePrec := Precinct` on each; all other rows are left
untouched and no row is added or removed. -/
def update_precincts (ms : List MemberRow) : List MemberRow :=
  ms.map fun m =>
    match m.votePrec with
    | none => { m with votePrec := some m.precinct }
    | some _ => m

/-- Modelled from the spec: the grouping-key join is performed by the
external `arcpy.management.JoinField` tool, which is not source of this
repository; per the spec it is a left join that, for each member key,
attaches the exploded table's group value where the key is present and
leaves the group field null otherwise, preserving cardinality and
order.  The member dataset before the join has no `VotePrec` field, so
it is given here as its list of member keys. -/
def join_by_field (keys : List String) (xref : List (String × String)) :
    List MemberRow :=
  keys.map fun p => ⟨p, dictLookup xref p⟩

/-- The core sequence of `run_tools`: explode the cross-reference into
an empty table, join the exploded table onto the precincts, then fill
missing voting precincts.  The source performs no validation of the
member dataset's keys at any point before the join. -/
def run_tools (rows : List XRow) (keys : List String) :
    List MemberRow × Option Nat :=
  match explode_xref rows [] with
  | (_, some e) => ([], some e)
  | (t, none) => (update_precincts (join_by_field keys t), none)

/-- Whether a member key occurs among the whitespace-split tokens of any
row of the raw cross-reference. -/
def memberKeyInXref (rows : List XRow) (p : String) : Bool :=
  rows.any fun r =>
    match r.2 with
    | none => false
    | some raw => decide (p ∈ pySplit raw)

/-! Dictionary lemmas. -/

theorem dictLookup_nil (k : String) : dictLookup [] k = none := rfl

theorem dictLookup_cons (p : String × String) (d : List (String × String)) (k : String) :
    dictLookup (p :: d) k = if p.1 = k then some p.2 else dictLookup d k := by
  by_cases h : p.1 = k
  · simp [dictLookup, List.find?, h]
  · have hb : (p.1 == k) = false := beq_eq_false_iff_ne.mpr h
    simp [dictLookup, List.find?, hb, h]

theorem dictLookup_dictInsert (d : List (String × String)) (k v k2 : String) :
    dictLookup (dictInsert d k v) k2 = if k2 = k then some v else dictLookup d k2 := by
  induction d with
  | nil =>
    rw [show dictInsert [] k v = [(k, v)] from rfl, dictLookup_cons]
    by_cases h : k2 = k
    · simp [h]
    · simp [h, Ne.symm h, dictLookup_nil]
  | cons p rest ih =>
    by_cases hp : p.1 = k
    · rw [show dictInsert (p :: rest) k v = (k, v) :: rest from by simp [dictInsert, hp],
        dictLookup_cons]
      by_cases h : k2 = k
      · simp [h]
      · have hpk2 : p.1 ≠ k2 := fun hc => h (hc.symm.trans hp)
        simp [h, Ne.symm h, dictLookup_cons, hpk2]
    · rw [show dictInsert (p :: rest) k v = p :: dictInsert rest k v from by
        simp [dictInsert, hp], dictLookup_cons, ih]
      by_cases hpk2 : p.1 = k2
      · have h : k2 ≠ k := fun hc => hp (hpk2.trans hc)
        simp [hpk2, h, dictLookup_cons]
      · simp [hpk2, dictLookup_cons]

theorem dictLookup_foldl (v : String) (L : List String) :
    ∀ (d : List (String × String)) (k : String),
      dictLookup (L.foldl (fun d rp => dictInsert d rp v) d) k =
        if k ∈ L then some v else dictLookup d k := by
  induction L with
  | nil => intro d k; simp
  | cons a L ih =>
    intro d k
    by_cases h : k ∈ a :: L
    · rcases List.mem_cons.mp h with h1 | h2
      · by_cases hL : k ∈ L
        · simp [List.foldl_cons, ih, hL, h]
        · simp [List.foldl_cons, ih, hL, h, dictLookup_dictInsert, h1]
      · simp [List.foldl_cons, ih, h2, h]
    · have h1 : k ≠ a := fun hc => h (by simp [hc])
      have h2 : ¬ k ∈ L := fun hc => h (by simp [hc])
      simp [List.foldl_cons, ih, h2, h, dictLookup_dictInsert, h1]

theorem dictLookup_eq_none_iff (t : List (String × String)) (k : String) :
    dictLookup t k = none ↔ ∀ p ∈ t, p.1 ≠ k := by
  simp [dictLookup, List.find?_eq_none]

theorem mem_keys_dictInsert (d : List (String × String)) (k v a : String) :
    a ∈ (dictInsert d k v).map Prod.fst → a ∈ d.map Prod.fst ∨ a = k := by
  induction d with
  | nil =>
    intro h
    rw [show dictInsert [] k v = [(k, v)] from rfl] at h
    simp only [List.map_cons, List.map_nil, List.mem_cons, List.not_mem_nil, or_false] at h
    exact Or.inr h
  | cons p rest ih =>
    by_cases hp : p.1 = k
    · rw [show dictInsert (p :: rest) k v = (k, v) :: rest from by simp [dictInsert, hp]]
      simp only [List.map_cons, List.mem_cons]
      rintro (h1 | h2)
      · exact Or.inr h1
      · exact Or.inl (Or.inr h2)
    · rw [show dictInsert (p :: rest) k v = p :: dictInsert rest k v from by
        simp [dictInsert, hp]]
      simp only [List.map_cons, List.mem_cons]
      rintro (h1 | h2)
      · exact Or.inl (Or.inl h1)
      · rcases ih h2 with h3 | h4
        · exact Or.inl (Or.inr h3)
        · exact Or.inr h4

theorem nodup_keys_dictInsert (d : List (String × String)) (k v : String)
    (h : (d.map Prod.fst).Nodup) : ((dictInsert d k v).map Prod.fst).Nodup := by
  induction d with
  | nil =>
    rw [show dictInsert [] k v = [(k, v)] from rfl]
    simp
  | cons p rest ih =>
    simp only [List.map_cons, List.nodup_cons] at h
    by_cases hp : p.1 = k
    · rw [show dictInsert (p :: rest) k v = (k, v) :: rest from by simp [dictInsert, hp]]
      simp only [List.map_cons, List.nodup_cons]
      exact ⟨hp ▸ h.1, h.2⟩
    · rw [show dictInsert (p :: rest) k v = p :: dictInsert rest k v from by
        simp [dictInsert, hp]]
      simp only [List.map_cons, List.nodup_cons]
      refine ⟨fun hc => ?_, ih h.2⟩
      rcases mem_keys_dictInsert rest k v p.1 hc with h1 | h2
      · exact h.1 h1
      · exact hp h2

/-! Step equations for the resolver loops. -/

theorem explodeMapAux_nil (c : List String → List String) (d : List (String × String)) :
    explodeMapAuxWith c [] d = .ok d := rfl

theorem explodeMapAux_cons_none (c : List String → List String) (vp : String)
    (rest : List XRow) (d : List (String × String)) :
    explodeMapAuxWith c ((vp, none) :: rest) d = .error 207 := rfl

theorem explodeMapAux_cons_some (c : List String → List String) (vp s : String)
    (rest : List XRow) (d : List (String × String)) :
    explodeMapAuxWith c ((vp, some s) :: rest) d =
      explodeMapAuxWith c rest
        ((c (pySplit s).dedup).foldl (fun d rp => dictInsert d rp vp) d) := rfl

theorem insertRowsAux_nil (d table : List (String × String)) :
    insertRowsAux d [] table = (table, none) := rfl

theorem insertRowsAux_cons_none (d : List (String × String)) (rp vp : String)
    (rest table : List (String × String)) (h : dictLookup d vp = none) :
    insertRowsAux d ((rp, vp) :: rest) table = (table, some 208) := by
  simp [insertRowsAux, h]

theorem insertRowsAux_cons_some (d : List (String × String)) (rp vp v : String)
    (rest table : List (String × String)) (h : dictLookup d vp = some v) :
    insertRowsAux d ((rp, vp) :: rest) table =
      insertRowsAux d rest (table ++ [(rp, v)]) := by
  simp [insertRowsAux, h]

/-! Resolver lemmas. -/

theorem nodup_keys_foldl (v : String) (L : List String) :
    ∀ d, (d.map Prod.fst).Nodup →
      ((L.foldl (fun d rp => dictInsert d rp v) d).map Prod.fst).Nodup := by
  induction L with
  | nil => intro d h; exact h
  | cons a L ih => intro d h; exact ih _ (nodup_keys_dictInsert d a v h)

theorem nodup_keys_explodeMapAux (rows : List XRow) :
    ∀ d0 d, (d0.map Prod.fst).Nodup → explodeMapAuxWith id rows d0 = .ok d →
      (d.map Prod.fst).Nodup := by
  induction rows with
  | nil =>
    intro d0 d h he
    rw [explodeMapAux_nil] at he
    cases he
    exact h
  | cons r rest ih =>
    intro d0 d h he
    rcases r with ⟨vp, raw⟩
    cases raw with
    | none => rw [explodeMapAux_cons_none] at he; cases he
    | some s =>
      rw [explodeMapAux_cons_some] at he
      exact ih _ d (nodup_keys_foldl vp _ d0 h) he

theorem explodeMapAux_lookup_congr (c1 c2 : List String → List String)
    (h1 : ∀ l, List.Perm (c1 l) l) (h2 : ∀ l, List.Perm (c2 l) l) :
    ∀ (rows : List XRow) (d1 d2 : List (String × String)),
      (∀ k, dictLookup d1 k = dictLookup d2 k) → ∀ k,
        Except.map (fun d => dictLookup d k) (explodeMapAuxWith c1 rows d1) =
        Except.map (fun d => dictLookup d k) (explodeMapAuxWith c2 rows d2) := by
  intro rows
  induction rows with
  | nil =>
    intro d1 d2 h k
    rw [explodeMapAux_nil, explodeMapAux_nil]
    exact congrArg Except.ok (h k)
  | cons r rest ih =>
    intro d1 d2 h k
    rcases r with ⟨vp, raw⟩
    cases raw with
    | none => rw [explodeMapAux_cons_none, explodeMapAux_cons_none]
    | some s =>
      rw [explodeMapAux_cons_some, explodeMapAux_cons_some]
      apply ih
      intro k2
      rw [dictLookup_foldl, dictLookup_foldl]
      have e1 : k2 ∈ c1 ((pySplit s).dedup) ↔ k2 ∈ (pySplit s).dedup := (h1 _).mem_iff
      have e2 : k2 ∈ c2 ((pySplit s).dedup) ↔ k2 ∈ (pySplit s).dedup := (h2 _).mem_iff
      by_cases hm : k2 ∈ (pySplit s).dedup
      · rw [if_pos (e1.mpr hm), if_pos (e2.mpr hm)]
      · rw [if_neg (fun hc => hm (e1.mp hc)), if_neg (fun hc => hm (e2.mp hc)), h k2]

theorem explodeMapAux_error_of_none (rows : List XRow) :
    ∀ d0, (∃ r ∈ rows, r.2 = none) → explodeMapAuxWith id rows d0 = .error 207 := by
  induction rows with
  | nil => intro d0 h; rcases h with ⟨r, hr, _⟩; cases hr
  | cons r rest ih =>
    intro d0 h
    rcases r with ⟨vp, raw⟩
    cases raw with
    | none => rw [explodeMapAux_cons_none]
    | some s =>
      rcases h with ⟨q, hq, hq2⟩
      rcases List.mem_cons.mp hq with h3 | hmem
      · rw [h3] at hq2; cases hq2
      · rw [explodeMapAux_cons_some]
        exact ih _ ⟨q, hmem, hq2⟩

theorem explodeMapAux_lookup_none (k : String) (rows : List XRow) :
    ∀ d0 d, explodeMapAuxWith id rows d0 = .ok d →
      (∀ r ∈ rows, ∀ raw, r.2 = some raw → k ∉ pySplit raw) →
      dictLookup d0 k = none → dictLookup d k = none := by
  induction rows with
  | nil =>
    intro d0 d he _ h0
    rw [explodeMapAux_nil] at he
    cases he
    exact h0
  | cons r rest ih =>
    intro d0 d he h h0
    rcases r with ⟨vp, raw⟩
    cases raw with
    | none => rw [explodeMapAux_cons_none] at he; cases he
    | some s =>
      rw [explodeMapAux_cons_some] at he
      refine ih _ d he (fun r hr raw h2 => h r (List.mem_cons_of_mem _ hr) raw h2) ?_
      rw [dictLookup_foldl]
      have hk : k ∉ pySplit s := h (vp, some s) (List.mem_cons_self _ _) s rfl
      have hk2 : k ∉ id ((pySplit s).dedup) := by simpa [List.mem_dedup] using hk
      rw [if_neg hk2]
      exact h0

theorem insertRowsAux_mem (d : List (String × String)) :
    ∀ (items table : List (String × String)) (q : String × String),
      q ∈ (insertRowsAux d items table).1 →
      q ∈ table ∨ q.1 ∈ items.map Prod.fst := by
  intro items
  induction items with
  | nil =>
    intro table q h
    rw [insertRowsAux_nil] at h
    exact Or.inl h
  | cons it rest ih =>
    intro table q h
    rcases it with ⟨rp, vp⟩
    cases hl : dictLookup d vp with
    | none =>
      rw [insertRowsAux_cons_none d rp vp rest table hl] at h
      exact Or.inl h
    | some v =>
      rw [insertRowsAux_cons_some d rp vp v rest table hl] at h
      rcases ih (table ++ [(rp, v)]) q h with h1 | h2
      · rcases List.mem_append.mp h1 with h3 | h4
        · exact Or.inl h3
        · have h5 : q = (rp, v) := by simpa using h4
          right
          rw [h5]
          simp
      · right
        simp only [List.map_cons, List.mem_cons]
        exact Or.inr h2

theorem explode_xref_ok_elim (rows : List XRow) (table t : List (String × String))
    (hex : explode_xref rows table = (t, none)) :
    ∃ d, explodeMap rows = .ok d ∧ insertRowsAux d d table = (t, none) := by
  unfold explode_xref at hex
  cases hm : explodeMap rows with
  | error e => rw [hm] at hex; simp at hex
  | ok d => rw [hm] at hex; exact ⟨d, rfl, hex⟩

/-! Join and fill lemmas. -/

theorem update_join (keys : List String) (t : List (String × String)) :
    update_precincts (join_by_field keys t) =
      keys.map (fun p => ⟨p, some ((dictLookup t p).getD p)⟩) := by
  simp only [update_precincts, join_by_field, List.map_map]
  apply List.map_congr_left
  intro p _
  cases h : dictLookup t p <;> simp [Function.comp, h]

theorem memberKeyInXref_eq_false_iff (rows : List XRow) (p : String) :
    memberKeyInXref rows p = false ↔
      ∀ r ∈ rows, ∀ raw, r.2 = some raw → p ∉ pySplit raw := by
  simp only [memberKeyInXref, List.any_eq_false]
  constructor
  · intro h r hr raw h2 hmem
    have h3 := h r hr
    rw [h2] at h3
    simp at h3
    exact h3 hmem
  · intro h r hr
    cases h2 : r.2 with
    | none => simp
    | some raw => simpa using h r hr raw h2

theorem empty_row_skipped (vp : String) (rows2 : List XRow) :
    ∀ (rows1 : List XRow) (d : List (String × String)),
      explodeMapAuxWith id (rows1 ++ (vp, some "") :: rows2) d =
      explodeMapAuxWith id (rows1 ++ rows2) d := by
  have hsplit : pySplit "" = [] := rfl
  intro rows1
  induction rows1 with
  | nil =>
    intro d
    rw [List.nil_append, List.nil_append, explodeMapAux_cons_some, hsplit]
    rfl
  | cons r rows1 ih =>
    intro d
    rcases r with ⟨vp2, raw⟩
    cases raw with
    | none => rw [List.cons_append, List.cons_append, explodeMapAux_cons_none,
        explodeMapAux_cons_none]
    | some s =>
      rw [List.cons_append, List.cons_append, explodeMapAux_cons_some,
        explodeMapAux_cons_some]
      exact ih _

/-! Claim theorems. -/

/-- C1: the claim that every exploded output pair is (member key,
assigning row's group key) fails on the code.  At the concrete input
row ("V1", "P1") the dictionary correctly maps "P1" to "V1", but the
insert loop evaluates `precincts_1to1[voting_precinct]` — a KeyError on
"V1" — so explode_xref exits with code 208 and the output table stays
empty, instead of receiving the pair ("P1", "V1"). -/
theorem explode_output_pair_bug :
    explodeMap [("V1", some "P1")] = .ok [("P1", "V1")] ∧
    explode_xref [("V1", some "P1")] [] = ([], some 208) :=
  ⟨rfl, rfl⟩

/-- C2: for every member key list with unique keys, whenever explode_xref
succeeds with exploded table t, every record after the join and fill
passes has a non-null voting precinct, and every member key that occurs
in no cross-reference row's token list comes out assigned to itself. -/
theorem totality_and_fallback (rows : List XRow) (keys : List String)
    (t : List (String × String)) (_hk : keys.Nodup)
    (hex : explode_xref rows [] = (t, none)) :
    (∀ m ∈ update_precincts (join_by_field keys t), m.votePrec ≠ none) ∧
    (∀ p ∈ keys, memberKeyInXref rows p = false →
      (⟨p, some p⟩ : MemberRow) ∈ update_precincts (join_by_field keys t)) := by
  constructor
  · intro m hm
    rw [update_join] at hm
    rcases List.mem_map.mp hm with ⟨p, _, rfl⟩
    simp
  · intro p hp hnone
    rcases explode_xref_ok_elim rows [] t hex with ⟨d, hm, hins⟩
    have hd : dictLookup d p = none :=
      explodeMapAux_lookup_none p rows [] d hm
        ((memberKeyInXref_eq_false_iff rows p).mp hnone) rfl
    have hdkeys : ∀ q ∈ d, q.1 ≠ p := (dictLookup_eq_none_iff d p).mp hd
    have ht : dictLookup t p = none := by
      rw [dictLookup_eq_none_iff]
      intro q hq
      have hq1 : q ∈ (insertRowsAux d d []).1 := by rw [hins]; exact hq
      rcases insertRowsAux_mem d d [] q hq1 with h1 | h2
      · cases h1
      · rcases List.mem_map.mp h2 with ⟨q2, hq2, hq21⟩
        rw [← hq21]
        exact hdkeys q2 hq2
    rw [update_join]
    refine List.mem_map.mpr ⟨p, hp, ?_⟩
    simp [ht]

/-- C2 witness: with cross-reference row ("P1", "P1 P2") and member keys
P1, P2, P4, the member P4 absent from the cross-reference ends up
assigned to itself after join and fill. -/
theorem totality_and_fallback_witness :
    (⟨"P4", some "P4"⟩ : MemberRow) ∈
      update_precincts (join_by_field ["P1", "P2", "P4"]
        [("P1", "P1"), ("P2", "P1")]) :=
  (totality_and_fallback [("P1", some "P1 P2")] ["P1", "P2", "P4"]
      [("P1", "P1"), ("P2", "P1")] (by decide) rfl).2 "P4" (by decide) rfl

/-- C3: on the conflicting rows [("V1", "P1"), ("V2", "P1")] the
dictionary phase does resolve P1 to V2 by last-write-wins, as claimed,
but the Resolver does not complete without failure: the insert loop's
`precincts_1to1[voting_precinct]` lookup raises KeyError on "V2" and
explode_xref exits with code 208, contradicting the claim that this
input is handled without a crash. -/
theorem last_write_wins_then_crash :
    explodeMap [("V1", some "P1"), ("V2", some "P1")] = .ok [("P1", "V2")] ∧
    explode_xref [("V1", some "P1"), ("V2", some "P1")] [] = ([], some 208) :=
  ⟨rfl, rfl⟩

/-- C4: any input containing a row whose member text is null makes the
dictionary phase fail (AttributeError on split, surfaced as exit code
207); the resolution pass is aborted and the exploded table receives no
entries at all. -/
theorem malformed_row_aborts (rows : List XRow) (table : List (String × String))
    (h : ∃ r ∈ rows, r.2 = none) :
    explode_xref rows table = (table, some 207) := by
  unfold explode_xref explodeMap explodeMapWith
  rw [explodeMapAux_error_of_none rows [] h]

/-- C4 witness: a single null-text row aborts the resolution with exit
code 207 and leaves the exploded table empty. -/
theorem malformed_row_aborts_witness :
    explode_xref [("V1", none)] [] = ([], some 207) :=
  malformed_row_aborts [("V1", none)] [] ⟨("V1", none), by simp, rfl⟩

/-- C5 counterexample: the member key list ["P1", "P1"] contains a
duplicate, yet the pipeline raises no error of any kind: run_tools
completes the join and fill over both copies, refuting the claim that a
DuplicateMemberKey error is raised before the join pass. -/
theorem dup_member_key_not_rejected :
    run_tools [("P1", some "P1")] ["P1", "P1"] =
      ([⟨"P1", some "P1"⟩, ⟨"P1", some "P1"⟩], none) :=
  rfl

/-- C5 amended: the pipeline performs no duplicate-member-key
validation: for every member key list, duplicates included, whenever the
resolver pass succeeds the join and fill passes run to completion with
no error, each row (duplicate or not) receiving the mapped group key or
its own key as fallback. -/
theorem run_tools_no_dup_validation (rows : List XRow) (keys : List String)
    (t : List (String × String)) (hex : explode_xref rows [] = (t, none)) :
    run_tools rows keys =
      (keys.map (fun p => ⟨p, some ((dictLookup t p).getD p)⟩), none) := by
  unfold run_tools
  rw [hex]
  show (update_precincts (join_by_field keys t), none) = _
  rw [update_join]

/-- C5 amended witness: at the duplicate member key list ["P1", "P1"]
the pipeline completes with no error. -/
theorem run_tools_no_dup_validation_witness :
    run_tools [("P1", some "P1")] ["P1", "P1"] =
      (["P1", "P1"].map (fun p =>
        ⟨p, some ((dictLookup [("P1", "P1")] p).getD p)⟩), none) :=
  run_tools_no_dup_validation [("P1", some "P1")] ["P1", "P1"]
    [("P1", "P1")] rfl

/-- C6: the dictionary built by explode_xref never has two entries for
one member key — each distinct member key of a row yields at most one
mapping entry — and the concrete row ("V1", "P1 P1 P2") with a repeated
token yields exactly the two entries for P1 and P2. -/
theorem within_row_dedup :
    (∀ (rows : List XRow) (d : List (String × String)),
      explodeMap rows = .ok d → (d.map Prod.fst).Nodup) ∧
    explodeMap [("V1", some "P1 P1 P2")] = .ok [("P1", "V1"), ("P2", "V1")] :=
  ⟨fun rows d h => nodup_keys_explodeMapAux rows [] d (by simp) h, rfl⟩

/-- C6 witness: the mapping produced from the row ("V1", "P1 P1 P2")
has pairwise distinct member keys. -/
theorem within_row_dedup_witness :
    (([("P1", "V1"), ("P2", "V1")] : List (String × String)).map Prod.fst).Nodup :=
  within_row_dedup.1 [("V1", some "P1 P1 P2")] [("P1", "V1"), ("P2", "V1")] rfl

/-- C7: the fill pass is idempotent — running update_precincts twice on
any member collection gives the same collection as running it once. -/
theorem fill_idempotent (ms : List MemberRow) :
    update_precincts (update_precincts ms) = update_precincts ms := by
  simp only [update_precincts, List.map_map]
  apply List.map_congr_left
  intro m _
  cases h : m.votePrec <;> simp [Function.comp, h]

/-- C8: the resolved mapping is deterministic for a fixed row order:
for any two enumeration orders of each row's deduplicated token set
(any permutations, as a Python set imposes no order), the resolver
yields the same outcome — identical failure, or mappings with identical
lookups at every member key. -/
theorem mapping_determinism (c1 c2 : List String → List String)
    (h1 : ∀ l, List.Perm (c1 l) l) (h2 : ∀ l, List.Perm (c2 l) l)
    (rows : List XRow) (k : String) :
    Except.map (fun d => dictLookup d k) (explodeMapWith c1 rows) =
    Except.map (fun d => dictLookup d k) (explodeMapWith c2 rows) :=
  explodeMapAux_lookup_congr c1 c2 h1 h2 rows [] [] (fun _ => rfl) k

/-- C8 witness: enumerating each row's token set in first-occurrence
order or in reversed order yields the same lookup for P2 on a concrete
two-row input. -/
theorem mapping_determinism_witness :
    Except.map (fun d => dictLookup d "P2")
        (explodeMapWith id [("V1", some "P1 P2"), ("V2", some "P2 P3")]) =
      Except.map (fun d => dictLookup d "P2")
        (explodeMapWith List.reverse [("V1", some "P1 P2"), ("V2", some "P2 P3")]) :=
  mapping_determinism id List.reverse (fun l => List.Perm.refl l)
    (fun l => List.reverse_perm l) [("V1", some "P1 P2"), ("V2", some "P2 P3")] "P2"

/-- C9: a row with empty member text contributes nothing, wherever it
occurs, and raises no error; on the single row ("V1", "") the exploded
table stays empty and explode_xref reports no failure. -/
theorem empty_member_list_valid :
    (∀ (rows1 rows2 : List XRow) (vp : String),
      explodeMap (rows1 ++ (vp, some "") :: rows2) = explodeMap (rows1 ++ rows2)) ∧
    explode_xref [("V1", some "")] [] = ([], none) :=
  ⟨fun rows1 rows2 vp => empty_row_skipped vp rows2 rows1 [], rfl⟩

/-- C10: the fill pass touches only the voting-precinct field and only
on rows where it is null: the row count is preserved, the member-key
column is preserved, every row pairs positionally with its input row,
rows with a non-null voting precinct are returned unchanged, and null
rows change only by receiving their own member key. -/
theorem fill_frame (ms : List MemberRow) :
    (update_precincts ms).length = ms.length ∧
    (update_precincts ms).map MemberRow.precinct = ms.map MemberRow.precinct ∧
    List.Forall₂ (fun a b =>
      b.precinct = a.precinct ∧
      (a.votePrec ≠ none → b = a) ∧
      (a.votePrec = none → b = ⟨a.precinct, some a.precinct⟩))
      ms (update_precincts ms) := by
  refine ⟨by simp [update_precincts], ?_, ?_⟩
  · simp only [update_precincts, List.map_map]
    apply List.map_congr_left
    intro m _
    cases h : m.votePrec <;> simp [Function.comp, h]
  · induction ms with
    | nil => exact List.Forall₂.nil
    | cons m rest ih =>
      refine List.Forall₂.cons ?_ ih
      cases h : m.votePrec <;> simp [update_precincts, h]

/-- C10 witness: the fill pass preserves the length of a concrete
two-row collection. -/
theorem fill_frame_witness :
    (update_precincts [⟨"P1", some "V1"⟩, ⟨"P2", none⟩]).length = 2 :=
  (fill_frame [⟨"P1", some "V1"⟩, ⟨"P2", none⟩]).1.trans rfl

end SantaCruz
